import Mathlib

/-!
Verification development for the MFA (Mixture of Factor Analyzers) engine in
utils/mfa.py.  Each Gaussian component carries a low-rank factor A (d×l), a
diagonal noise-variance vector D (length d), a mean mu and a mixing weight pi;
the covariance is Sigma = A·Aᵀ + diag(D).  The likelihood code inverts Sigma
through the Woodbury identity and computes its determinant through the matrix
determinant lemma, never materialising a d×d inverse.  Real-valued numpy
arithmetic is embedded over ℝ; numpy's NaN-producing square root is embedded
as an Option-valued function; weight handling in draw_samples is embedded over
ℚ so that the tolerance comparisons are exact.
-/

namespace MFA

open Matrix

variable {n d l K : ℕ}

/-- One mixture component: the dictionary `{'D','A','mu','pi'}` of mfa.py,
together with the lazily added cache keys inv_sigma1, inv_sigma2 and c_factor
(absent keys are modelled as `none`). -/
structure Component (d l : ℕ) where
  A : Matrix (Fin d) (Fin l) ℝ
  D : Fin d → ℝ
  mu : Fin d → ℝ
  pi : ℝ
  inv_sigma1 : Option (Matrix (Fin l) (Fin d) ℝ) := none
  inv_sigma2 : Option (Matrix (Fin d) (Fin l) ℝ) := none
  c_factor : Option ℝ := none

/-- Embedding of `invD = np.power(c['D'], -1.0)`. -/
noncomputable def invD (D : Fin d → ℝ) : Fin d → ℝ := fun j => (D j)⁻¹

/-- Embedding of `IPiDP = np.eye(l) + c['A'].T @ (c['A'] * invD)`; numpy
broadcasting of the (d,1)-shaped `invD` multiplies row j of A by `invD j`. -/
noncomputable def IPiDP (A : Matrix (Fin d) (Fin l) ℝ) (D : Fin d → ℝ) :
    Matrix (Fin l) (Fin l) ℝ :=
  1 + Aᵀ * Matrix.of fun j k => A j k * invD D j

/-- Embedding of `inv_sigma1 = c['A'].T * invD.T`; the (1,d)-shaped `invD.T`
broadcast multiplies column j by `invD j`. -/
noncomputable def inv_sigma1 (A : Matrix (Fin d) (Fin l) ℝ) (D : Fin d → ℝ) :
    Matrix (Fin l) (Fin d) ℝ :=
  Matrix.of fun k j => Aᵀ k j * invD D j

/-- Embedding of `inv_sigma2 = (np.linalg.inv(IPiDP) @ c['A'].T * invD.T).T`
(`@` and `*` associate left in Python). -/
noncomputable def inv_sigma2 (A : Matrix (Fin d) (Fin l) ℝ) (D : Fin d → ℝ) :
    Matrix (Fin d) (Fin l) ℝ :=
  (Matrix.of fun k j => ((IPiDP A D)⁻¹ * Aᵀ) k j * invD D j)ᵀ

/-- Embedding of `log_dSigma = np.log(np.linalg.det(IPiDP)) + np.sum(np.log(c['D']))`. -/
noncomputable def log_dSigma (A : Matrix (Fin d) (Fin l) ℝ) (D : Fin d → ℝ) : ℝ :=
  Real.log (IPiDP A D).det + ∑ j, Real.log (D j)

/-- Embedding of `c_factor = d*np.log(2*np.pi) + log_dSigma`. -/
noncomputable def c_factor (A : Matrix (Fin d) (Fin l) ℝ) (D : Fin d → ℝ) : ℝ :=
  (d : ℝ) * Real.log (2 * Real.pi) + log_dSigma A D

/-- Embedding of `X_c = X - c['mu']` (the mean row is broadcast over the batch). -/
noncomputable def X_c (X : Matrix (Fin n) (Fin d) ℝ) (mu : Fin d → ℝ) :
    Matrix (Fin n) (Fin d) ℝ :=
  Matrix.of fun i j => X i j - mu j

/-- Embedding of
`m_d = np.sum(X_c * (X_c * invD.T - (X_c @ inv_sigma2) @ inv_sigma1), axis=1)`. -/
noncomputable def m_d (X : Matrix (Fin n) (Fin d) ℝ) (A : Matrix (Fin d) (Fin l) ℝ)
    (D : Fin d → ℝ) (mu : Fin d → ℝ) : Fin n → ℝ :=
  fun i => ∑ j, X_c X mu i j *
    (X_c X mu i j * invD D j - (X_c X mu * inv_sigma2 A D * inv_sigma1 A D) i j)

/-- Per-component log-density `-0.5 * (m_d + c_factor)` computed by
`_get_component_log_probs` / `_get_component_log_probs_task` (without the
mixing weight). -/
noncomputable def component_log_likelihood (X : Matrix (Fin n) (Fin d) ℝ)
    (A : Matrix (Fin d) (Fin l) ℝ) (D : Fin d → ℝ) (mu : Fin d → ℝ) : Fin n → ℝ :=
  fun i => -0.5 * (m_d X A D mu i + c_factor A D)

/-- The full covariance matrix `Sigma = A @ A.T + np.diag(D)` that the code
deliberately never materialises. -/
noncomputable def Sigma_mat (A : Matrix (Fin d) (Fin l) ℝ) (D : Fin d → ℝ) :
    Matrix (Fin d) (Fin d) ℝ :=
  A * Aᵀ + Matrix.diagonal D

/-- Direct O(d³) reference Gaussian log-density: form Sigma, invert it and take
its determinant. -/
noncomputable def reference_log_likelihood (X : Matrix (Fin n) (Fin d) ℝ)
    (A : Matrix (Fin d) (Fin l) ℝ) (D : Fin d → ℝ) (mu : Fin d → ℝ) : Fin n → ℝ :=
  fun i => -0.5 * ((fun j => X_c X mu i j) ⬝ᵥ ((Sigma_mat A D)⁻¹ *ᵥ fun j => X_c X mu i j)
    + (d : ℝ) * Real.log (2 * Real.pi) + Real.log (Sigma_mat A D).det)

/-- Embedding of the stateful `_get_component_log_probs`: when the key
c_factor is absent from the component dictionary, the derived quantities
inv_sigma1, inv_sigma2 and c_factor are computed and written back into the
component (`self.components[k] = c`); the log-likelihood is then computed from
the cached entries.  Returns the per-row result together with the updated
component. -/
noncomputable def get_component_log_probs (X : Matrix (Fin n) (Fin d) ℝ)
    (c : Component d l) : (Fin n → ℝ) × Component d l :=
  let c2 := if c.c_factor.isNone then
      { c with inv_sigma1 := some (inv_sigma1 c.A c.D),
               inv_sigma2 := some (inv_sigma2 c.A c.D),
               c_factor := some (c_factor c.A c.D) }
    else c
  (fun i => -0.5 * ((∑ j, X_c X c.mu i j * (X_c X c.mu i j * invD c.D j -
      (X_c X c.mu * c2.inv_sigma2.getD 0 * c2.inv_sigma1.getD 0) i j)) + c2.c_factor.getD 0),
   c2)

/-- Embedding of the `_get_component_log_probs_task` worker: recomputes the
derived quantities inline (no cache) and returns the tagged weighted
log-density `(comp_num, np.log(pi) - 0.5*(m_d + c_factor))`. -/
noncomputable def get_component_log_probs_task (comp_num : Fin K) (c : Component d l)
    (X : Matrix (Fin n) (Fin d) ℝ) : Fin K × (Fin n → ℝ) :=
  (comp_num, fun i => Real.log c.pi - 0.5 * (m_d X c.A c.D c.mu i + c_factor c.A c.D))

/-- Serial `_get_components_log_probabilities`: column k of the n×K matrix
holds `np.log(pi_k)` plus the component log-density. -/
noncomputable def get_components_log_probabilities (comps : Fin K → Component d l)
    (X : Matrix (Fin n) (Fin d) ℝ) : Matrix (Fin n) (Fin K) ℝ :=
  Matrix.of fun i k => Real.log (comps k).pi + (get_component_log_probs X (comps k)).1 i

/-- The task list built by `_get_components_log_probabilities_multithreaded`:
one task per component, tagged by its column index. -/
noncomputable def component_tasks (comps : Fin K → Component d l)
    (X : Matrix (Fin n) (Fin d) ℝ) : List (Fin K × (Fin n → ℝ)) :=
  List.ofFn fun k => get_component_log_probs_task k (comps k) X

/-- Merge loop of the multithreaded path:
`for comp_num, comp_ll in comp_results: components_log_probs[:, comp_num] = comp_ll`,
writing each result into the column named by its tag, in arrival order. -/
noncomputable def merge_component_results (results : List (Fin K × (Fin n → ℝ)))
    (acc : Matrix (Fin n) (Fin K) ℝ) : Matrix (Fin n) (Fin K) ℝ :=
  results.foldl (fun M p => Matrix.of fun i k => if k = p.1 then p.2 i else M i k) acc

/-- Parallel evaluation result: the worker outputs, arriving in the order of
the list `results`, merged by tagged column into the zero-initialised n×K
matrix. -/
noncomputable def multithreaded_log_probabilities {n K : ℕ}
    (results : List (Fin K × (Fin n → ℝ))) : Matrix (Fin n) (Fin K) ℝ :=
  merge_component_results results 0

/-- Embedding of `_log_sum_exp`: row-wise max, then max plus the log of the
summed exponentials of the max-shifted row (np.max over axis 1 requires at
least one column). -/
noncomputable def log_sum_exp {m K : ℕ} [NeZero K] (ns : Matrix (Fin m) (Fin K) ℝ) :
    Fin m → ℝ :=
  fun i =>
    let max_vals := Finset.univ.sup'
      ⟨⟨0, Nat.pos_of_ne_zero (NeZero.ne K)⟩, Finset.mem_univ _⟩ fun k => ns i k
    max_vals + Real.log (∑ k, Real.exp (ns i k - max_vals))

/-- Embedding of `get_log_responsibilities`: the per-component weighted
log-probability matrix minus the row-broadcast log_sum_exp of that same
matrix. -/
noncomputable def get_log_responsibilities {n d l K : ℕ} [NeZero K]
    (comps : Fin K → Component d l) (X : Matrix (Fin n) (Fin d) ℝ) :
    Matrix (Fin n) (Fin K) ℝ :=
  Matrix.of fun i k => get_components_log_probabilities comps X i k -
    log_sum_exp (get_components_log_probabilities comps X) i

/-- Embedding of `get_responsibilities`: elementwise exp of the log
responsibilities. -/
noncomputable def get_responsibilities {n d l K : ℕ} [NeZero K]
    (comps : Fin K → Component d l) (X : Matrix (Fin n) (Fin d) ℝ) :
    Matrix (Fin n) (Fin K) ℝ :=
  Matrix.of fun i k => Real.exp (get_log_responsibilities comps X i k)

/-- Embedding (over exact ℚ) of the weight-correction step of `draw_samples`:
`sp = sum(pi); if not sp == 1.0: assert abs(sp-1.0) < 1e-5;
max_comp = pi.index(max(pi)); pi[max_comp] -= (sp-1.0)`.  A failed assert
(the spec's InvalidDistributionError) is `none`; `max` of an empty list also
raises. -/
def draw_samples_weights (pi : List ℚ) : Option (List ℚ) :=
  let sp := pi.sum
  if sp = 1 then some pi
  else if |sp - 1| < 1 / 100000 then
    match pi.max? with
    | none => none
    | some mx =>
      let max_comp := pi.findIdx fun x => x = mx
      some (pi.set max_comp (pi.getD max_comp 0 - (sp - 1)))
  else none

/-- Shape semantics of `_rearrange_input`, given the model dimension d and the
numpy shape of the input: returns the shape of the normalised batch, or
`none` when an assert fires (the spec's DimensionMismatchError).  A rank-2
input is checked on its column count; every other input is checked on its
total size (`samples.size`, the product of the shape) and reshaped to
`[1, d]`. -/
def rearrange_input (d : ℕ) (shape : List ℕ) : Option (List ℕ) :=
  if shape.length = 2 then
    if shape.getD 1 0 = d then some shape else none
  else
    if shape.prod = d then some [1, d] else none

/-- Numpy square root of a real scalar: a negative argument yields NaN
(modelled as `none`) together with a RuntimeWarning — never an exception. -/
noncomputable def npSqrt (x : ℝ) : Option ℝ :=
  if x < 0 then none else some (Real.sqrt x)

/-- Embedding of `_draw_from_component` with the two standard-normal draws
z_l (n×l) and z_d (n×d) passed in explicitly: `X = z_l @ A.T + mu`, then when
add_noise holds, `X += z_d * np.sqrt(D)`.  Entries are Option-valued so that a
numpy NaN (from the square root of a negative variance) is `none`; NaN is
absorbing for * and +, hence the map. -/
noncomputable def draw_from_component (z_l : Matrix (Fin n) (Fin l) ℝ)
    (z_d : Matrix (Fin n) (Fin d) ℝ) (c : Component d l) (add_noise : Bool) :
    Matrix (Fin n) (Fin d) (Option ℝ) :=
  Matrix.of fun i j =>
    if add_noise then
      (npSqrt (c.D j)).map fun s => ((∑ t, z_l i t * c.A j t) + c.mu j) + z_d i j * s
    else some ((∑ t, z_l i t * c.A j t) + c.mu j)

/-- Stored representation of a mu entry inside a pickled model: either a numpy
vector, or (older persisted format) a plain sequence holding the same
numbers. -/
inductive MuRepr (d : ℕ) where
  | vec (v : Fin d → ℝ)
  | seq (v : Fin d → ℝ)

/-- One pickled component dictionary: every entry of the in-memory dictionary,
with mu possibly in the older plain-sequence representation. -/
structure StoredComponent (d l : ℕ) where
  A : Matrix (Fin d) (Fin l) ℝ
  D : Fin d → ℝ
  mu : MuRepr d
  pi : ℝ
  inv_sigma1 : Option (Matrix (Fin l) (Fin d) ℝ) := none
  inv_sigma2 : Option (Matrix (Fin d) (Fin l) ℝ) := none
  c_factor : Option ℝ := none

/-- Embedding of `np.array` applied to a stored mu: an existing vector is kept
as is, a plain sequence is coerced to a vector with the same entries. -/
def npArray {d : ℕ} : MuRepr d → (Fin d → ℝ)
  | .vec v => v
  | .seq v => v

/-- Embedding of `save`.  Modelled from the spec: the pickle byte stream
(`pickle.dump` in save / `pickle.load` in load) is an opaque exact codec, so
serialisation is the identity encoding of every dictionary entry, with the
in-memory numpy mu stored in vector form. -/
def save {d l K : ℕ} (comps : Fin K → Component d l) : Fin K → StoredComponent d l :=
  fun k => { A := (comps k).A, D := (comps k).D, mu := MuRepr.vec (comps k).mu,
             pi := (comps k).pi, inv_sigma1 := (comps k).inv_sigma1,
             inv_sigma2 := (comps k).inv_sigma2, c_factor := (comps k).c_factor }

/-- Embedding of `load`: decode the pickled mapping, then (backwards
compatibility) replace every component's mu by `np.array(mu)`. -/
def load {d l K : ℕ} (st : Fin K → StoredComponent d l) : Fin K → Component d l :=
  fun k => { A := (st k).A, D := (st k).D, mu := npArray (st k).mu,
             pi := (st k).pi, inv_sigma1 := (st k).inv_sigma1,
             inv_sigma2 := (st k).inv_sigma2, c_factor := (st k).c_factor }

/-- Shape-carrying component produced by `randomize_params`, with vectors as
lists so that the length invariants are genuine statements. -/
structure RandComponent where
  D : List ℝ
  A : List (List ℝ)
  mu : List ℝ
  pi : ℝ

/-- Embedding of `randomize_params` (default non-isotropic noise), with the
random draws passed in as explicit sources: `piU i` is entry i of
`np.random.uniform(0.2, 1.0, num_components)`, `dU i j` entry j of the uniform
noise-variance draw for component i, `aN i r c` an entry of the normal draw
for A, and `muU i j` entry j of the uniform mean draw.  The rank cap is
`l = min(max_l, dim)` with `max_l = 8`; `pi` is the squared-uniform vector
normalised by its sum.  The resulting mapping, like the Python dict, holds a
component exactly at the keys `0..num_components-1`. -/
noncomputable def randomize_params (num_components dim : ℕ)
    (piU : ℕ → ℝ) (dU : ℕ → ℕ → ℝ) (aN : ℕ → ℕ → ℕ → ℝ) (muU : ℕ → ℕ → ℝ) :
    ℕ → Option RandComponent :=
  fun i =>
    if i < num_components then
      some { D := List.ofFn fun j : Fin dim => dU i j,
             A := List.ofFn fun r : Fin dim =>
                    List.ofFn fun c : Fin (min 8 dim) => aN i r c,
             mu := List.ofFn fun j : Fin dim => muU i j,
             pi := piU i ^ 2 / ∑ t ∈ Finset.range num_components, piU t ^ 2 }
    else none

theorem log_sum_exp_eq_naive {m K : ℕ} [NeZero K] (ns : Matrix (Fin m) (Fin K) ℝ)
    (i : Fin m) : log_sum_exp ns i = Real.log (∑ k, Real.exp (ns i k)) := by
  have hne : (Finset.univ : Finset (Fin K)).Nonempty :=
    ⟨⟨0, Nat.pos_of_ne_zero (NeZero.ne K)⟩, Finset.mem_univ _⟩
  have hpos : 0 < ∑ k, Real.exp (ns i k) :=
    Finset.sum_pos (fun k _ => Real.exp_pos _) hne
  have key : ∀ M : ℝ, M + Real.log (∑ k, Real.exp (ns i k - M)) =
      Real.log (∑ k, Real.exp (ns i k)) := by
    intro M
    have hsum : (∑ k, Real.exp (ns i k - M)) = (∑ k, Real.exp (ns i k)) / Real.exp M :=
      (Finset.sum_congr rfl fun k _ => Real.exp_sub _ _).trans (Finset.sum_div _ _ _).symm
    rw [hsum, Real.log_div hpos.ne' (Real.exp_ne_zero M), Real.log_exp]
    ring
  exact key _

/-- C3: the stabilized log-sum-exp (row-wise max plus the log of the sum of
exponentials of the max-shifted row) equals the naive per-row
log(Σ_k exp(value)). -/
theorem log_sum_exp_stabilized_eq_naive {m K : ℕ} [NeZero K]
    (ns : Matrix (Fin m) (Fin K) ℝ) (i : Fin m) :
    log_sum_exp ns i = Real.log (∑ k, Real.exp (ns i k)) :=
  log_sum_exp_eq_naive ns i

theorem log_sum_exp_stabilized_eq_naive_witness :
    log_sum_exp (0 : Matrix (Fin 1) (Fin 1) ℝ) 0 =
      Real.log (∑ k, Real.exp ((0 : Matrix (Fin 1) (Fin 1) ℝ) 0 k)) :=
  log_sum_exp_stabilized_eq_naive (0 : Matrix (Fin 1) (Fin 1) ℝ) 0

/-- C4: the log responsibilities are the weighted per-component
log-probability matrix minus the row-broadcast log_sum_exp of that same
matrix, and consequently every row of the (elementwise exponential)
responsibilities sums to 1. -/
theorem responsibilities_rows_sum_one {n d l K : ℕ} [NeZero K]
    (comps : Fin K → Component d l) (X : Matrix (Fin n) (Fin d) ℝ) :
    (∀ i k, get_log_responsibilities comps X i k =
        get_components_log_probabilities comps X i k -
        log_sum_exp (get_components_log_probabilities comps X) i) ∧
    (∀ i, ∑ k, get_responsibilities comps X i k = 1) := by
  refine ⟨fun i k => rfl, fun i => ?_⟩
  have hne : (Finset.univ : Finset (Fin K)).Nonempty :=
    ⟨⟨0, Nat.pos_of_ne_zero (NeZero.ne K)⟩, Finset.mem_univ _⟩
  set P := get_components_log_probabilities comps X with hP
  have hpos : 0 < ∑ k, Real.exp (P i k) :=
    Finset.sum_pos (fun k _ => Real.exp_pos _) hne
  have hstep : ∀ k, get_responsibilities comps X i k =
      Real.exp (P i k) / Real.exp (log_sum_exp P i) := by
    intro k
    show Real.exp (P i k - log_sum_exp P i) = _
    exact Real.exp_sub _ _
  calc ∑ k, get_responsibilities comps X i k
      = ∑ k, Real.exp (P i k) / Real.exp (log_sum_exp P i) :=
        Finset.sum_congr rfl fun k _ => hstep k
    _ = (∑ k, Real.exp (P i k)) / Real.exp (log_sum_exp P i) := by
        rw [← Finset.sum_div]
    _ = (∑ k, Real.exp (P i k)) / (∑ k, Real.exp (P i k)) := by
        rw [log_sum_exp_eq_naive P i, Real.exp_log hpos]
    _ = 1 := div_self hpos.ne'

theorem responsibilities_rows_sum_one_witness :
    ∑ k, get_responsibilities
        (fun _ : Fin 1 => (⟨0, fun _ => 1, fun _ => 0, 1, none, none, none⟩ : Component 1 1))
        (0 : Matrix (Fin 1) (Fin 1) ℝ) 0 k = 1 :=
  (responsibilities_rows_sum_one
    (fun _ : Fin 1 => (⟨0, fun _ => 1, fun _ => 0, 1, none, none, none⟩ : Component 1 1))
    (0 : Matrix (Fin 1) (Fin 1) ℝ)).2 0

/-- C8: the first likelihood evaluation of a component writes only the
derived cache fields (inv_sigma1, inv_sigma2 and the log-determinant factor
c_factor) into the component, leaving A, D, mu and pi unchanged; a subsequent
evaluation of the unmodified component leaves it unchanged (it reuses the
cache instead of recomputing) and returns the same result on the same
input. -/
theorem cache_population_frame {n d l : ℕ} (X : Matrix (Fin n) (Fin d) ℝ)
    (c : Component d l) (hc : c.c_factor = none) :
    ((get_component_log_probs X c).2.A = c.A ∧
     (get_component_log_probs X c).2.D = c.D ∧
     (get_component_log_probs X c).2.mu = c.mu ∧
     (get_component_log_probs X c).2.pi = c.pi) ∧
    ((get_component_log_probs X c).2.inv_sigma1 = some (inv_sigma1 c.A c.D) ∧
     (get_component_log_probs X c).2.inv_sigma2 = some (inv_sigma2 c.A c.D) ∧
     (get_component_log_probs X c).2.c_factor = some (c_factor c.A c.D)) ∧
    (get_component_log_probs X (get_component_log_probs X c).2).2 =
      (get_component_log_probs X c).2 ∧
    (get_component_log_probs X (get_component_log_probs X c).2).1 =
      (get_component_log_probs X c).1 := by
  simp [get_component_log_probs, hc]

theorem cache_population_frame_witness :
    (get_component_log_probs (0 : Matrix (Fin 1) (Fin 1) ℝ)
        (⟨0, fun _ => 1, fun _ => 0, 1, none, none, none⟩ : Component 1 1)).2.A =
      (⟨0, fun _ => 1, fun _ => 0, 1, none, none, none⟩ : Component 1 1).A :=
  (cache_population_frame (0 : Matrix (Fin 1) (Fin 1) ℝ)
    (⟨0, fun _ => 1, fun _ => 0, 1, none, none, none⟩ : Component 1 1) rfl).1.1

/-- C9: deserializing the result of serializing a mixture reproduces every
component exactly (in particular A, D, mu and pi), and loading a persisted
mapping whose mu was stored as a plain sequence coerces it to the vector type
while preserving its entries. -/
theorem save_load_roundtrip {d l K : ℕ} (comps : Fin K → Component d l)
    (st : Fin K → StoredComponent d l) :
    load (save comps) = comps ∧
    (∀ k v, (st k).mu = MuRepr.seq v → (load st k).mu = v) := by
  constructor
  · funext k
    rfl
  · intro k v hv
    simp [load, hv, npArray]

theorem save_load_roundtrip_witness :
    load (save (fun _ : Fin 1 =>
        (⟨0, fun _ => 1, fun _ => 0, 1, none, none, none⟩ : Component 1 1))) =
      (fun _ : Fin 1 => (⟨0, fun _ => 1, fun _ => 0, 1, none, none, none⟩ : Component 1 1)) ∧
    (load (fun _ : Fin 1 =>
        (⟨0, fun _ => 1, MuRepr.seq fun _ => 2, 1, none, none, none⟩ : StoredComponent 1 1)) 0).mu =
      fun _ => 2 :=
  ⟨(save_load_roundtrip
      (fun _ : Fin 1 => (⟨0, fun _ => 1, fun _ => 0, 1, none, none, none⟩ : Component 1 1))
      (fun _ : Fin 1 =>
        (⟨0, fun _ => 1, MuRepr.seq fun _ => 2, 1, none, none, none⟩ : StoredComponent 1 1))).1,
   (save_load_roundtrip
      (fun _ : Fin 1 => (⟨0, fun _ => 1, fun _ => 0, 1, none, none, none⟩ : Component 1 1))
      (fun _ : Fin 1 =>
        (⟨0, fun _ => 1, MuRepr.seq fun _ => 2, 1, none, none, none⟩ : StoredComponent 1 1))).2
     0 (fun _ => 2) rfl⟩

/-- C6 counterexample: a rank-3 input whose total size equals the model
dimension d = 3 is silently reshaped to a 1×d batch by _rearrange_input
instead of being rejected, contradicting the claim that inputs of rank other
than 1 or 2 are rejected. -/
theorem rearrange_input_rank3_accepted :
    [1, 1, 3].length ≠ 2 ∧ [1, 1, 3].length ≠ 1 ∧
    rearrange_input 3 [1, 1, 3] = some [1, 3] := by
  decide

/-- C6 amended: a 2-dimensional input is returned unchanged when its column
count equals d and rejected otherwise; an input of any other rank is reshaped
to a 1×d batch when its total element count equals d and rejected
otherwise. -/
theorem rearrange_input_shape_cases (d : ℕ) (shape : List ℕ) :
    (shape.length = 2 → shape.getD 1 0 = d → rearrange_input d shape = some shape) ∧
    (shape.length = 2 → shape.getD 1 0 ≠ d → rearrange_input d shape = none) ∧
    (shape.length ≠ 2 → shape.prod = d → rearrange_input d shape = some [1, d]) ∧
    (shape.length ≠ 2 → shape.prod ≠ d → rearrange_input d shape = none) := by
  unfold rearrange_input
  refine ⟨fun h1 h2 => ?_, fun h1 h2 => ?_, fun h1 h2 => ?_, fun h1 h2 => ?_⟩
  · rw [if_pos h1, if_pos h2]
  · rw [if_pos h1, if_neg h2]
  · rw [if_neg h1, if_pos h2]
  · rw [if_neg h1, if_neg h2]

theorem rearrange_input_shape_cases_witness :
    rearrange_input 3 [2, 3] = some [2, 3] ∧ rearrange_input 3 [4] = none :=
  ⟨(rearrange_input_shape_cases 3 [2, 3]).1 rfl rfl,
   (rearrange_input_shape_cases 3 [4]).2.2.2 (by decide) (by decide)⟩

/-- C7 counterexample: with add_noise enabled and a negative noise variance,
draw_from_component does not fail; it returns a sample matrix whose entries
in that dimension are NaN (modelled as none). -/
theorem draw_from_component_negative_variance_nan :
    draw_from_component (0 : Matrix (Fin 1) (Fin 1) ℝ) (0 : Matrix (Fin 1) (Fin 1) ℝ)
      (⟨0, fun _ => -1, fun _ => 0, 1, none, none, none⟩ : Component 1 1) true 0 0 = none := by
  norm_num [draw_from_component, npSqrt]

/-- C7 amended: draw_from_component with add_noise never raises; in every
dimension whose noise variance is negative all output entries are NaN
(ill-defined, modelled as none), and in every dimension with non-negative
noise variance all output entries are well-defined. -/
theorem draw_from_component_noise_defined_iff {n d l : ℕ}
    (z_l : Matrix (Fin n) (Fin l) ℝ) (z_d : Matrix (Fin n) (Fin d) ℝ)
    (c : Component d l) (j : Fin d) :
    (c.D j < 0 → ∀ i, draw_from_component z_l z_d c true i j = none) ∧
    (0 ≤ c.D j → ∀ i, (draw_from_component z_l z_d c true i j).isSome = true) := by
  constructor
  · intro h i
    simp [draw_from_component, npSqrt, h]
  · intro h i
    simp [draw_from_component, npSqrt, not_lt.mpr h]

theorem draw_from_component_noise_defined_iff_witness :
    (draw_from_component (0 : Matrix (Fin 1) (Fin 1) ℝ) (0 : Matrix (Fin 1) (Fin 1) ℝ)
      (⟨0, fun _ => -2, fun _ => 0, 1, none, none, none⟩ : Component 1 1) true 0 0 = none) ∧
    ((draw_from_component (0 : Matrix (Fin 1) (Fin 1) ℝ) (0 : Matrix (Fin 1) (Fin 1) ℝ)
      (⟨0, fun _ => 1, fun _ => 0, 1, none, none, none⟩ : Component 1 1) true 0 0).isSome = true) :=
  ⟨(draw_from_component_noise_defined_iff (0 : Matrix (Fin 1) (Fin 1) ℝ)
      (0 : Matrix (Fin 1) (Fin 1) ℝ)
      (⟨0, fun _ => -2, fun _ => 0, 1, none, none, none⟩ : Component 1 1) 0).1
      (by norm_num) 0,
   (draw_from_component_noise_defined_iff (0 : Matrix (Fin 1) (Fin 1) ℝ)
      (0 : Matrix (Fin 1) (Fin 1) ℝ)
      (⟨0, fun _ => 1, fun _ => 0, 1, none, none, none⟩ : Component 1 1) 0).2
      (by norm_num) 0⟩

theorem get_component_log_probs_fst {n d l : ℕ} (X : Matrix (Fin n) (Fin d) ℝ)
    (c : Component d l) (hc : c.c_factor = none) (i : Fin n) :
    (get_component_log_probs X c).1 i = -0.5 * (m_d X c.A c.D c.mu i + c_factor c.A c.D) := by
  simp [get_component_log_probs, hc, m_d]

theorem merge_component_results_apply {n K : ℕ} (f : Fin K → Fin n → ℝ)
    (results : List (Fin K × (Fin n → ℝ))) (acc : Matrix (Fin n) (Fin K) ℝ)
    (hval : ∀ p ∈ results, p.2 = f p.1) (i : Fin n) (k : Fin K) :
    merge_component_results results acc i k =
      if k ∈ results.map Prod.fst then f k i else acc i k := by
  induction results generalizing acc with
  | nil => simp [merge_component_results]
  | cons p rest ih =>
    have hp : p.2 = f p.1 := hval p (List.mem_cons_self _ _)
    have hrest : ∀ q ∈ rest, q.2 = f q.1 := fun q hq => hval q (List.mem_cons_of_mem _ hq)
    have hstep : merge_component_results (p :: rest) acc =
        merge_component_results rest (Matrix.of fun i k => if k = p.1 then p.2 i else acc i k) :=
      rfl
    rw [hstep, ih _ hrest]
    by_cases hk : k ∈ rest.map Prod.fst
    · simp [hk]
    · by_cases hkp : k = p.1
      · simp [hk, hkp, hp]
      · simp [hk, hkp]

/-- C2: merging the tagged worker results of the parallel path into the
zero-initialised matrix, in any completion order, produces exactly the n×K
matrix (log(pi_k) plus the component log-density in column k) of the serial
computation. -/
theorem multithreaded_matches_serial {n d l K : ℕ} (comps : Fin K → Component d l)
    (X : Matrix (Fin n) (Fin d) ℝ) (results : List (Fin K × (Fin n → ℝ)))
    (hperm : results.Perm (component_tasks comps X))
    (hcache : ∀ k, (comps k).c_factor = none) :
    multithreaded_log_probabilities results = get_components_log_probabilities comps X := by
  have hval : ∀ p ∈ results, p.2 = fun i =>
      Real.log (comps p.1).pi - 0.5 *
        (m_d X (comps p.1).A (comps p.1).D (comps p.1).mu i +
          c_factor (comps p.1).A (comps p.1).D) := by
    intro p hp
    have hmem : p ∈ component_tasks comps X := hperm.mem_iff.mp hp
    rw [component_tasks, List.mem_ofFn] at hmem
    obtain ⟨k, hk⟩ := hmem
    subst hk
    rfl
  ext i k
  have hcov : k ∈ results.map Prod.fst := by
    have : k ∈ (component_tasks comps X).map Prod.fst := by
      rw [component_tasks, List.map_ofFn, List.mem_ofFn]
      exact ⟨k, rfl⟩
    exact ((hperm.map Prod.fst).mem_iff).mpr this
  rw [multithreaded_log_probabilities,
    merge_component_results_apply
      (fun q i => Real.log (comps q).pi - 0.5 *
        (m_d X (comps q).A (comps q).D (comps q).mu i + c_factor (comps q).A (comps q).D))
      results 0 hval i k,
    if_pos hcov]
  show _ = get_components_log_probabilities comps X i k
  rw [get_components_log_probabilities, Matrix.of_apply,
    get_component_log_probs_fst X (comps k) (hcache k) i]
  ring

theorem multithreaded_matches_serial_witness :
    multithreaded_log_probabilities
      (component_tasks
        (fun _ : Fin 1 => (⟨0, fun _ => 1, fun _ => 0, 1, none, none, none⟩ : Component 1 1))
        (0 : Matrix (Fin 1) (Fin 1) ℝ)) =
    get_components_log_probabilities
      (fun _ : Fin 1 => (⟨0, fun _ => 1, fun _ => 0, 1, none, none, none⟩ : Component 1 1))
      (0 : Matrix (Fin 1) (Fin 1) ℝ) :=
  multithreaded_matches_serial
    (fun _ : Fin 1 => (⟨0, fun _ => 1, fun _ => 0, 1, none, none, none⟩ : Component 1 1))
    (0 : Matrix (Fin 1) (Fin 1) ℝ) _ (List.Perm.refl _) (fun _ => rfl)

/-- C10: given the ranges the random sources are drawn from, randomize_params
establishes the data-model invariants: components exist exactly at ids
0..num_components-1, the mean and noise-variance vectors have length dim, the
low-rank factor is dim × min(8, dim), every noise variance and mixing weight
is strictly positive, and the mixing weights sum to 1. -/
theorem randomize_params_establishes_invariants (num_components dim : ℕ)
    (noise_variance : ℝ) (piU : ℕ → ℝ) (dU : ℕ → ℕ → ℝ)
    (aN : ℕ → ℕ → ℕ → ℝ) (muU : ℕ → ℕ → ℝ)
    (hK : 1 ≤ num_components) (hdim : 1 ≤ dim) (hnv : 0 < noise_variance)
    (hpiU : ∀ i, i < num_components → 0.2 ≤ piU i)
    (hdU : ∀ i j, i < num_components → j < dim → noise_variance / 10 ≤ dU i j) :
    (∀ i, (randomize_params num_components dim piU dU aN muU i).isSome ↔
      i < num_components) ∧
    (∀ i c, randomize_params num_components dim piU dU aN muU i = some c →
      c.D.length = dim ∧ c.mu.length = dim ∧ c.A.length = dim ∧
      (∀ row ∈ c.A, row.length = min 8 dim) ∧
      (∀ x ∈ c.D, 0 < x) ∧ 0 < c.pi) ∧
    (∑ i ∈ Finset.range num_components,
      ((randomize_params num_components dim piU dU aN muU i).elim 0 RandComponent.pi)) = 1 := by
  have h02 : (0 : ℝ) < 0.2 := by norm_num
  have hS : 0 < ∑ t ∈ Finset.range num_components, piU t ^ 2 := by
    refine Finset.sum_pos' (fun t _ => sq_nonneg _) ?_
    refine ⟨0, Finset.mem_range.mpr (by omega), ?_⟩
    exact pow_pos (lt_of_lt_of_le h02 (hpiU 0 (by omega))) 2
  refine ⟨fun i => ?_, fun i c hc => ?_, ?_⟩
  · rw [randomize_params]
    by_cases h : i < num_components <;> simp [h]
  · rw [randomize_params] at hc
    by_cases h : i < num_components
    · rw [if_pos h, Option.some.injEq] at hc
      subst hc
      refine ⟨by simp, by simp, by simp, ?_, ?_, ?_⟩
      · intro row hrow
        rw [List.mem_ofFn] at hrow
        obtain ⟨r, rfl⟩ := hrow
        exact List.length_ofFn _
      · intro x hx
        rw [List.mem_ofFn] at hx
        obtain ⟨j, rfl⟩ := hx
        exact lt_of_lt_of_le (by positivity) (hdU i j h j.isLt)
      · exact div_pos (pow_pos (lt_of_lt_of_le h02 (hpiU i h)) 2) hS
    · rw [if_neg h] at hc
      exact absurd hc (by simp)
  · calc ∑ i ∈ Finset.range num_components,
        ((randomize_params num_components dim piU dU aN muU i).elim 0 RandComponent.pi)
        = ∑ i ∈ Finset.range num_components,
            piU i ^ 2 / (∑ t ∈ Finset.range num_components, piU t ^ 2) := by
          refine Finset.sum_congr rfl fun i hi => ?_
          rw [randomize_params, if_pos (Finset.mem_range.mp hi)]
          rfl
      _ = (∑ i ∈ Finset.range num_components, piU i ^ 2) /
            (∑ t ∈ Finset.range num_components, piU t ^ 2) := (Finset.sum_div _ _ _).symm
      _ = 1 := div_self hS.ne'

theorem randomize_params_establishes_invariants_witness :
    ∑ i ∈ Finset.range 1,
      ((randomize_params 1 1 (fun _ => 1) (fun _ _ => 1/2) (fun _ _ _ => 0)
          (fun _ _ => 0) i).elim 0 RandComponent.pi) = 1 :=
  (randomize_params_establishes_invariants 1 1 1 (fun _ => 1) (fun _ _ => 1/2)
    (fun _ _ _ => 0) (fun _ _ => 0) le_rfl le_rfl one_pos
    (fun _ _ => by norm_num) (fun _ _ _ _ => by norm_num)).2.2

/-- C5 counterexample: a weight vector whose sum deviates from 1 by exactly
eps = 1e-5 — "at most eps" in the claim's words — is rejected by the strict
assert `abs(sp-1.0) < 1e-5` instead of being corrected. -/
theorem draw_samples_weights_boundary_rejected :
    |([(1 : ℚ)/2, 1/2 + 1/100000].sum) - 1| ≤ 1/100000 ∧
    ([(1 : ℚ)/2, 1/2 + 1/100000].sum) ≠ 1 ∧
    draw_samples_weights [(1 : ℚ)/2, 1/2 + 1/100000] = none := by
  have hs : ([(1 : ℚ)/2, 1/2 + 1/100000].sum) = 1 + 1/100000 := by
    norm_num [List.sum_cons, List.sum_nil]
  have h2 : |(1 : ℚ) + 1/100000 - 1| = 1/100000 := by
    rw [show (1 : ℚ) + 1/100000 - 1 = 1/100000 by ring]
    exact abs_of_nonneg (by norm_num)
  refine ⟨by rw [hs, h2], by rw [hs]; norm_num, ?_⟩
  simp only [draw_samples_weights, hs, h2]
  norm_num

/-- C5 amended: when the weight sum deviates from 1.0 by at least eps = 1e-5
the operation fails (InvalidDistributionError); when the deviation is nonzero
and strictly below eps, the whole deviation is subtracted from the single
largest weight (the first largest on ties) and every other weight is left
unchanged. -/
theorem draw_samples_weight_correction (pi : List ℚ) (hsum : pi.sum ≠ 1) :
    (1 / 100000 ≤ |pi.sum - 1| → draw_samples_weights pi = none) ∧
    (|pi.sum - 1| < 1 / 100000 →
      ∃ j, j < pi.length ∧
        (∀ i, i < pi.length → pi.getD i 0 ≤ pi.getD j 0) ∧
        (∀ i, i < j → pi.getD i 0 < pi.getD j 0) ∧
        ∃ out, draw_samples_weights pi = some out ∧ out.length = pi.length ∧
          out.getD j 0 = pi.getD j 0 - (pi.sum - 1) ∧
          ∀ i, i ≠ j → out.getD i 0 = pi.getD i 0) := by
  constructor
  · intro hge
    rw [draw_samples_weights]
    simp only [if_neg hsum, if_neg (not_lt.mpr hge)]
  · intro hlt
    have hne : pi ≠ [] := by
      rintro rfl
      norm_num at hlt
    obtain ⟨mx, hmax⟩ : ∃ mx, pi.max? = some mx := by
      cases h : pi.max? with
      | none => exact absurd (List.max?_eq_none_iff.mp h) hne
      | some mx => exact ⟨mx, rfl⟩
    have hmem : mx ∈ pi := List.max?_mem max_choice hmax
    have hub : ∀ b ∈ pi, b ≤ mx :=
      (List.max?_le_iff (fun _ _ _ => max_le_iff) hmax).1 le_rfl
    have hget : ∀ i (h : i < pi.length), pi.getD i 0 = pi.get ⟨i, h⟩ := by
      intro i h
      rw [List.getD_eq_getElem?_getD, List.getElem?_eq_getElem h]
      simp
    have hjlt : pi.findIdx (fun x => x = mx) < pi.length :=
      List.findIdx_lt_length_of_exists ⟨mx, hmem, by simp⟩
    have hjmax : pi.get ⟨pi.findIdx (fun x => x = mx), hjlt⟩ = mx := by
      have h2 := @List.findIdx_getElem _ (fun x => decide (x = mx)) pi hjlt
      simpa using h2
    refine ⟨pi.findIdx (fun x => x = mx), hjlt, ?_, ?_,
      pi.set (pi.findIdx (fun x => x = mx))
        (pi.getD (pi.findIdx (fun x => x = mx)) 0 - (pi.sum - 1)), ?_, by simp, ?_, ?_⟩
    · intro i hi
      rw [hget i hi, hget _ hjlt, hjmax]
      exact hub _ (pi.get_mem _ _)
    · intro i hij
      have hi : i < pi.length := lt_trans hij hjlt
      have hne2 : pi.get ⟨i, hi⟩ ≠ mx := by
        have h3 := @List.not_of_lt_findIdx _ (fun x => decide (x = mx)) pi i hij
        simpa using h3
      rw [hget i hi, hget _ hjlt, hjmax]
      exact lt_of_le_of_ne (hub _ (pi.get_mem _ _)) hne2
    · rw [draw_samples_weights]
      simp only [if_neg hsum, if_pos hlt, hmax]
    · rw [List.getD_eq_getElem?_getD, List.getElem?_set_self hjlt]
      rfl
    · intro i hij
      rw [List.getD_eq_getElem?_getD, List.getElem?_set_ne (Ne.symm hij),
        ← List.getD_eq_getElem?_getD]

theorem draw_samples_weight_correction_witness :
    ∃ j, j < ([(3 : ℚ)/10, 7/10 + 1/200000]).length ∧
      (∀ i, i < ([(3 : ℚ)/10, 7/10 + 1/200000]).length →
        ([(3 : ℚ)/10, 7/10 + 1/200000]).getD i 0 ≤ ([(3 : ℚ)/10, 7/10 + 1/200000]).getD j 0) ∧
      (∀ i, i < j →
        ([(3 : ℚ)/10, 7/10 + 1/200000]).getD i 0 < ([(3 : ℚ)/10, 7/10 + 1/200000]).getD j 0) ∧
      ∃ out, draw_samples_weights [(3 : ℚ)/10, 7/10 + 1/200000] = some out ∧
        out.length = ([(3 : ℚ)/10, 7/10 + 1/200000]).length ∧
        out.getD j 0 = ([(3 : ℚ)/10, 7/10 + 1/200000]).getD j 0 -
          (([(3 : ℚ)/10, 7/10 + 1/200000]).sum - 1) ∧
        ∀ i, i ≠ j → out.getD i 0 = ([(3 : ℚ)/10, 7/10 + 1/200000]).getD i 0 :=
  (draw_samples_weight_correction [(3 : ℚ)/10, 7/10 + 1/200000]
      (by norm_num [List.sum_cons, List.sum_nil])).2
    (by
      have hs : ([(3 : ℚ)/10, 7/10 + 1/200000].sum) = 1 + 1/200000 := by
        norm_num [List.sum_cons, List.sum_nil]
      rw [hs, show (1 : ℚ) + 1/200000 - 1 = 1/200000 by ring,
        abs_of_nonneg (by norm_num : (0 : ℚ) ≤ 1/200000)]
      norm_num)

theorem scale_rows_eq {d l : ℕ} (A : Matrix (Fin d) (Fin l) ℝ) (D : Fin d → ℝ) :
    (Matrix.of fun j k => A j k * invD D j) = Matrix.diagonal (invD D) * A := by
  ext j k
  rw [Matrix.of_apply, Matrix.diagonal_mul, mul_comm]

theorem inv_sigma1_eq {d l : ℕ} (A : Matrix (Fin d) (Fin l) ℝ) (D : Fin d → ℝ) :
    inv_sigma1 A D = Aᵀ * Matrix.diagonal (invD D) := by
  ext k j
  rw [inv_sigma1, Matrix.of_apply, Matrix.mul_diagonal]

theorem IPiDP_eq {d l : ℕ} (A : Matrix (Fin d) (Fin l) ℝ) (D : Fin d → ℝ) :
    IPiDP A D = 1 + Aᵀ * Matrix.diagonal (invD D) * A := by
  rw [IPiDP, scale_rows_eq, Matrix.mul_assoc]

theorem IPiDP_transpose {d l : ℕ} (A : Matrix (Fin d) (Fin l) ℝ) (D : Fin d → ℝ) :
    (IPiDP A D)ᵀ = IPiDP A D := by
  rw [IPiDP_eq]
  simp [Matrix.transpose_add, Matrix.transpose_mul, Matrix.transpose_one,
    Matrix.diagonal_transpose, Matrix.transpose_transpose, Matrix.mul_assoc]

theorem IPiDP_posDef {d l : ℕ} (A : Matrix (Fin d) (Fin l) ℝ) (D : Fin d → ℝ)
    (hD : ∀ j, 0 < D j) : (IPiDP A D).PosDef := by
  rw [IPiDP_eq]
  have hdiag : (Matrix.diagonal (invD D)).PosSemidef :=
    Matrix.PosSemidef.diagonal fun j => inv_nonneg.mpr (hD j).le
  have hPSD : (Aᵀ * Matrix.diagonal (invD D) * A).PosSemidef := by
    have h := hdiag.conjTranspose_mul_mul_same A
    rwa [Matrix.conjTranspose_eq_transpose_of_trivial] at h
  exact Matrix.PosDef.add_posSemidef Matrix.PosDef.one hPSD

theorem Sigma_posDef {d l : ℕ} (A : Matrix (Fin d) (Fin l) ℝ) (D : Fin d → ℝ)
    (hD : ∀ j, 0 < D j) : (Sigma_mat A D).PosDef := by
  rw [Sigma_mat]
  have h1 : (A * Aᵀ).PosSemidef := by
    have h := Matrix.posSemidef_self_mul_conjTranspose A
    rwa [Matrix.conjTranspose_eq_transpose_of_trivial] at h
  exact Matrix.PosDef.posSemidef_add h1 (Matrix.PosDef.diagonal hD)

theorem diagonal_D_isUnit {d : ℕ} (D : Fin d → ℝ) (hD : ∀ j, 0 < D j) :
    IsUnit (Matrix.diagonal D) := by
  rw [Matrix.isUnit_iff_isUnit_det, Matrix.det_diagonal]
  exact (Finset.prod_pos fun j _ => hD j).ne'.isUnit

theorem diagonal_D_inv {d : ℕ} (D : Fin d → ℝ) (hD : ∀ j, 0 < D j) :
    (Matrix.diagonal D)⁻¹ = Matrix.diagonal (invD D) := by
  apply Matrix.inv_eq_right_inv
  rw [Matrix.diagonal_mul_diagonal]
  have hone : (fun i => D i * invD D i) = fun _ : Fin d => (1 : ℝ) :=
    funext fun j => mul_inv_cancel₀ (hD j).ne'
  rw [hone, Matrix.diagonal_one]

theorem Sigma_inv_eq {d l : ℕ} (A : Matrix (Fin d) (Fin l) ℝ) (D : Fin d → ℝ)
    (hD : ∀ j, 0 < D j) :
    (Sigma_mat A D)⁻¹ = Matrix.diagonal (invD D) -
      Matrix.diagonal (invD D) * A * (IPiDP A D)⁻¹ * Aᵀ * Matrix.diagonal (invD D) := by
  have hA : IsUnit (Matrix.diagonal D) := diagonal_D_isUnit D hD
  have hkey : (1 : Matrix (Fin l) (Fin l) ℝ)⁻¹ + Aᵀ * (Matrix.diagonal D)⁻¹ * A
      = IPiDP A D := by
    rw [inv_one, diagonal_D_inv D hD, IPiDP_eq, add_comm]
  have hAC : IsUnit ((1 : Matrix (Fin l) (Fin l) ℝ)⁻¹ + Aᵀ * (Matrix.diagonal D)⁻¹ * A) := by
    rw [hkey]
    exact (IPiDP_posDef A D hD).isUnit
  have hS : Sigma_mat A D
      = Matrix.diagonal D + A * (1 : Matrix (Fin l) (Fin l) ℝ) * Aᵀ := by
    rw [Sigma_mat, Matrix.mul_one, add_comm]
  rw [hS, Matrix.add_mul_mul_inv_eq_sub _ _ _ _ hA isUnit_one hAC, hkey,
    diagonal_D_inv D hD]

theorem inv_sigma2_eq {d l : ℕ} (A : Matrix (Fin d) (Fin l) ℝ) (D : Fin d → ℝ) :
    inv_sigma2 A D = Matrix.diagonal (invD D) * A * (IPiDP A D)⁻¹ := by
  have h1 : (Matrix.of fun k j => ((IPiDP A D)⁻¹ * Aᵀ) k j * invD D j)
      = (IPiDP A D)⁻¹ * Aᵀ * Matrix.diagonal (invD D) := by
    ext k j
    rw [Matrix.of_apply, Matrix.mul_diagonal]
  rw [inv_sigma2, h1, Matrix.transpose_mul, Matrix.transpose_mul,
    Matrix.diagonal_transpose, Matrix.transpose_transpose,
    Matrix.transpose_nonsing_inv, IPiDP_transpose, ← Matrix.mul_assoc]

theorem det_Sigma_eq {d l : ℕ} (A : Matrix (Fin d) (Fin l) ℝ) (D : Fin d → ℝ)
    (hD : ∀ j, 0 < D j) :
    (Sigma_mat A D).det = (IPiDP A D).det * ∏ j, D j := by
  have hone : (fun i => D i * invD D i) = fun _ : Fin d => (1 : ℝ) :=
    funext fun j => mul_inv_cancel₀ (hD j).ne'
  have hfact : Sigma_mat A D =
      Matrix.diagonal D * (1 + Matrix.diagonal (invD D) * A * Aᵀ) := by
    rw [Matrix.mul_add, Matrix.mul_one, ← Matrix.mul_assoc, ← Matrix.mul_assoc,
      Matrix.diagonal_mul_diagonal, hone, Matrix.diagonal_one, Matrix.one_mul,
      Sigma_mat, add_comm]
  rw [hfact, Matrix.det_mul, Matrix.det_diagonal, Matrix.det_one_add_mul_comm,
    ← Matrix.mul_assoc, ← IPiDP_eq]
  ring

theorem log_det_Sigma_eq {d l : ℕ} (A : Matrix (Fin d) (Fin l) ℝ) (D : Fin d → ℝ)
    (hD : ∀ j, 0 < D j) :
    Real.log (Sigma_mat A D).det = Real.log (IPiDP A D).det + ∑ j, Real.log (D j) := by
  rw [det_Sigma_eq A D hD,
    Real.log_mul (IPiDP_posDef A D hD).det_pos.ne' (Finset.prod_pos fun j _ => hD j).ne',
    Real.log_prod _ _ fun j _ => (hD j).ne']

theorem m_d_eq_quadratic {n d l : ℕ} (X : Matrix (Fin n) (Fin d) ℝ)
    (A : Matrix (Fin d) (Fin l) ℝ) (D : Fin d → ℝ) (mu : Fin d → ℝ) (i : Fin n) :
    m_d X A D mu i = (fun j => X_c X mu i j) ⬝ᵥ
      ((Matrix.diagonal (invD D) - inv_sigma2 A D * inv_sigma1 A D) *ᵥ
        fun j => X_c X mu i j) := by
  rw [Matrix.sub_mulVec, Matrix.dotProduct_sub, m_d]
  simp only [mul_sub]
  rw [Finset.sum_sub_distrib]
  congr 1
  · refine Finset.sum_congr rfl fun j _ => ?_
    rw [Matrix.mulVec_diagonal]
    ring
  · rw [Matrix.mul_assoc]
    set B := inv_sigma2 A D * inv_sigma1 A D with hB
    rw [Matrix.dotProduct]
    simp only [Matrix.mul_apply, Matrix.mulVec, Matrix.dotProduct, Finset.mul_sum]
    rw [Finset.sum_comm]
    exact Finset.sum_congr rfl fun t _ => Finset.sum_congr rfl fun j _ => by ring

/-- C1: for strictly positive noise variances, the Woodbury/determinant-lemma
log-density computed by the code (steps 1-7, never materialising Sigma)
equals, row by row, the direct reference -0.5*((x-mu)ᵀ Sigma⁻¹ (x-mu)
+ d log(2π) + log det Sigma) with Sigma = A·Aᵀ + diag(D). -/
theorem component_log_likelihood_eq_reference {n d l : ℕ} (X : Matrix (Fin n) (Fin d) ℝ)
    (A : Matrix (Fin d) (Fin l) ℝ) (D : Fin d → ℝ) (mu : Fin d → ℝ)
    (hD : ∀ j, 0 < D j) :
    component_log_likelihood X A D mu = reference_log_likelihood X A D mu := by
  funext i
  simp only [component_log_likelihood, reference_log_likelihood]
  have hmat : Matrix.diagonal (invD D) - inv_sigma2 A D * inv_sigma1 A D
      = (Sigma_mat A D)⁻¹ := by
    rw [inv_sigma2_eq, inv_sigma1_eq, Sigma_inv_eq A D hD]
    simp only [Matrix.mul_assoc]
  have hquad : m_d X A D mu i = (fun j => X_c X mu i j) ⬝ᵥ
      ((Sigma_mat A D)⁻¹ *ᵥ fun j => X_c X mu i j) := by
    rw [m_d_eq_quadratic, hmat]
  rw [hquad, c_factor, log_dSigma, ← log_det_Sigma_eq A D hD]
  ring

theorem component_log_likelihood_eq_reference_witness :
    (∀ j : Fin 1, 0 < (fun _ : Fin 1 => (1 : ℝ)) j) ∧
    component_log_likelihood (0 : Matrix (Fin 1) (Fin 1) ℝ) (0 : Matrix (Fin 1) (Fin 1) ℝ)
        (fun _ => 1) (fun _ => 0) =
      reference_log_likelihood (0 : Matrix (Fin 1) (Fin 1) ℝ) (0 : Matrix (Fin 1) (Fin 1) ℝ)
        (fun _ => 1) (fun _ => 0) :=
  ⟨fun _ => one_pos,
   component_log_likelihood_eq_reference (0 : Matrix (Fin 1) (Fin 1) ℝ)
     (0 : Matrix (Fin 1) (Fin 1) ℝ) (fun _ => 1) (fun _ => 0) fun _ => one_pos⟩

end MFA
